import Mathlib

/-!
Verification development for the document-assembly pipeline of
swagger-jsdoc-express (src/utils.ts, src/parse/index.ts, src/generate.ts).

JavaScript values flowing through the pipeline are modelled by the
inductive type `JVal`: a tree of scalars, arrays and objects, with
explicit constructors for `undefined` and `null`.  JS objects are
modelled as association lists whose order is the JS own-property
enumeration order: canonical array-index keys first, in ascending
numeric order, then the remaining string keys in insertion order.
Every object the model builds maintains this invariant through the
order-aware property write `jsSetField`; objects delivered by the
external parsers carry it by construction, because a freshly parsed JS
object already enumerates that way.  JS strings are Lean `String`s, with the
string operations of the source (trim, toLowerCase, startsWith, substr,
comparison) re-implemented over the character list so that they agree
with the JS semantics on ASCII data; code points are compared directly
(JS compares UTF-16 units, which coincides on the basic plane).
-/

inductive JVal where
  | undef : JVal
  | null : JVal
  | bool (b : Bool) : JVal
  | num (n : Int) : JVal
  | str (s : String) : JVal
  | arr (xs : List JVal) : JVal
  | obj (fs : List (String × JVal)) : JVal

/-- JS `String.prototype.toLowerCase` restricted to ASCII letters, which is
all the source ever lowercases (tag titles, scheme names, sort keys). -/
def charLower (c : Char) : Char :=
  if 'A' ≤ c && c ≤ 'Z' then Char.ofNat (c.toNat + 32) else c

/-- JS `toLowerCase` on a whole string. -/
def jsToLower (s : String) : String :=
  String.mk (s.data.map charLower)

/-- The ASCII part of the JS whitespace class used by `String.prototype.trim`. -/
def isJsSpace (c : Char) : Bool :=
  c = ' ' || c = '\t' || c = '\n' || c = '\r' || c = '\x0c' || c = '\x0b'

/-- JS `String.prototype.trim`. -/
def jsTrim (s : String) : String :=
  String.mk (((s.data.dropWhile isJsSpace).reverse.dropWhile isJsSpace).reverse)

/-- `normalizeString` from src/utils.ts: lower-case, then trim.  The
`toStringSafe` step of the source is the identity here because every call
site in the modelled code passes a string (absent values are handled at
the call sites, see `normalizeStrOpt`). -/
def normalizeString (s : String) : String :=
  jsTrim (jsToLower s)

/-- `normalizeString` applied to a possibly-absent string:
`toStringSafe(undefined)` is `''` in src/utils.ts. -/
def normalizeStrOpt : Option String → String
  | none => ""
  | some s => normalizeString s

/-- Code points of a string, the units JS string comparison operates on
(for ASCII identical to UTF-16 units). -/
def strCodes (s : String) : List Nat :=
  s.data.map Char.toNat

/-- Lexicographic `<` on code sequences: the JS `<` operator on strings. -/
def ltCodes : List Nat → List Nat → Bool
  | [], [] => false
  | [], _ :: _ => true
  | _ :: _, [] => false
  | a :: as, b :: bs => if a < b then true else if b < a then false else ltCodes as bs

/-- JS `x < y` on strings. -/
def jsStrLt (x y : String) : Bool :=
  ltCodes (strCodes x) (strCodes y)

/-- The key order realised by `compareValuesBy(x, y, i => normalizeString(i))`
from src/utils.ts inside a stable sort: `x` may stay before `y` exactly when
the comparator is not positive, i.e. when `normalizeString y` is not
strictly below `normalizeString x`. -/
def keyLe (x y : String) : Bool :=
  !(jsStrLt (normalizeString y) (normalizeString x))

/-- Stable insertion of one element into a sorted list: the new element goes
after every element that may stay before it, which reproduces the output of
the (stable) JS `Array.prototype.sort` for a comparator induced by a key
function. -/
def insertLe (le : α → α → Bool) (a : α) : List α → List α
  | [] => [a]
  | b :: bs => if le b a then b :: insertLe le a bs else a :: b :: bs

/-- Stable sort by `le` (insertion sort; agrees with any stable sort for a
total preorder). -/
def sortLe (le : α → α → Bool) (l : List α) : List α :=
  l.foldl (fun acc a => insertLe le a acc) []

/-- Order on object fields: compare the keys with `keyLe`. -/
def fieldLe (a b : String × JVal) : Bool :=
  keyLe a.1 b.1

/-- First-match lookup in an object's field list: JS property read `o[k]`
for own keys, `none` when the key is absent. -/
def lookupField : List (String × JVal) → String → Option JVal
  | [], _ => none
  | (k', v) :: rest, k => if k' == k then some v else lookupField rest k

/-- Numeric order of canonical (no leading zero) decimal numerals compared
as code sequences: shorter numerals are smaller, equal lengths compare
lexicographically.  On canonical numerals this coincides with the numeric
order JS uses to enumerate array-index keys. -/
def numLtC (a b : List Nat) : Bool :=
  if a.length < b.length then true
  else if b.length < a.length then false
  else ltCodes a b

/-- ASCII digit test. -/
def isDigitCh (c : Char) : Bool :=
  '0' ≤ c && c ≤ '9'

/-- Whether a property key is a canonical array index in the JS sense:
`"0"`, or an all-digit numeral without a leading zero whose value is below
`2^32 - 1`.  Such keys are enumerated first, in ascending numeric order,
by `Object.keys`, `for ... in` and `JSON.stringify`. -/
def isArrayIndexKey (s : String) : Bool :=
  match s.data with
  | [] => false
  | c :: rest =>
    (c :: rest).all isDigitCh && (c != '0' || rest.isEmpty) &&
      numLtC (strCodes s) (strCodes "4294967295")

/-- Insertion of a fresh array-index key into a field list kept in JS
own-property order: it goes after every smaller index key and before
everything else. -/
def insertIndexEntry (kv : String × JVal) : List (String × JVal) → List (String × JVal)
  | [] => [kv]
  | p :: rest =>
    if isArrayIndexKey p.1 && numLtC (strCodes p.1) (strCodes kv.1)
    then p :: insertIndexEntry kv rest
    else kv :: p :: rest

/-- JS property write `o[k] = v` on a plain object: overwrite in place when
the key exists (keeping its position in enumeration order); a fresh
array-index key is woven into the ascending index block at the front; any
other fresh key is appended. -/
def jsSetField (fs : List (String × JVal)) (k : String) (v : JVal) : List (String × JVal) :=
  match lookupField fs k with
  | some _ => fs.map (fun p => if p.1 == k then (k, v) else p)
  | none =>
    if isArrayIndexKey k then insertIndexEntry (k, v) fs else fs ++ [(k, v)]

/-- The own-property enumeration order of a fresh plain object whose keys
are assigned in the order of the given list: `{}` followed by one property
write per entry. -/
def jsFreshObj (l : List (String × JVal)) : List (String × JVal) :=
  l.foldl (fun acc kv => jsSetField acc kv.1 kv.2) []

/-- JS truthiness of a value (`!v` in the source is `!(jvTruthy v)`). -/
def jvTruthy : JVal → Bool
  | .undef => false
  | .null => false
  | .bool b => b
  | .num n => n != 0
  | .str s => !s.data.isEmpty
  | .arr _ => true
  | .obj _ => true

/-- `_.isNil` from lodash: `null` or `undefined`. -/
def jsIsNil : JVal → Bool
  | .undef => true
  | .null => true
  | _ => false

/-- Index/value pairs of a JS array, as enumerated by `for ... in` and
`Object.keys`. -/
def arrIndexFields (xs : List JVal) : List (String × JVal) :=
  xs.enum.map (fun p => (Nat.repr p.1, p.2))

/-- Index/character pairs of a JS string, as enumerated by `for ... in` and
`Object.keys` on a (boxed) string. -/
def strIndexFields (s : String) : List (String × JVal) :=
  (s.data.enum).map (fun p => (Nat.repr p.1, .str (String.mk [p.2])))

/-- Own enumerable key/value pairs of a value: what `for ... in` and
`Object.keys` see (prototype-inherited properties are not modelled). -/
def jsOwnFields : JVal → List (String × JVal)
  | .obj fs => fs
  | .arr xs => arrIndexFields xs
  | .str s => strIndexFields s
  | _ => []

/-- `isMergeableObject` default of the deepmerge\@4 dependency: a non-null
object, i.e. a plain object or an array (RegExp/Date/react specials do not
occur in decoded YAML/JSON data). -/
def isMergeable : JVal → Bool
  | .obj _ => true
  | .arr _ => true
  | _ => false

/-- `propertyIsOnObject(target, key)` of deepmerge\@4 for the values of this
model (own keys of plain objects; prototype-inherited names are not
modelled). -/
def jsHasKey (t : JVal) (k : String) : Bool :=
  match t with
  | .obj fs => (lookupField fs k).isSome
  | _ => false

/-- The destination initialisation of deepmerge's `mergeObject`: a clone of
the target's own fields when the target is mergeable, else empty. -/
def baseFields : JVal → List (String × JVal)
  | .obj fs => fs
  | _ => []

/-- The `deepmerge(target, source)` call of src/generate.ts, i.e. the
deepmerge\@4 npm dependency with default options: arrays of matching kinds
are merged by the default `arrayMerge`, which CONCATENATES target and
source; mismatched kinds are resolved by cloning the source; two non-arrays
go through `mergeObject`, which clones the target's fields and then, key by
key of the source, recurses when the target owns the key and the source
value is mergeable, else takes the source value.  Cloning is the identity
on pure values.  A non-object source without own keys thus yields the
cloned target fields, a string source contributes its index fields (whose
character values are never mergeable, so the recursive branch of
`mergeObject` cannot trigger there and is inlined away).  One error path
of the dependency is not modelled: for a top-level `null`/`undefined`
source, `Object.keys` inside `mergeObject` throws a TypeError that
escapes `generateSwaggerV2Document`; this model returns the merged target
fields instead, so no theorem below may rely on a nil merge source. -/
def deepMergeJV : JVal → JVal → JVal
  | t, .arr ys =>
    match t with
    | .arr xs => .arr (xs ++ ys)
    | _ => .arr ys
  | t, .obj fs =>
    match t with
    | .arr _ => .obj fs
    | _ => .obj (mergeFields t (baseFields t) fs)
  | t, s =>
    match t with
    | .arr _ => s
    | _ => .obj ((jsOwnFields s).foldl (fun dest kv => jsSetField dest kv.1 kv.2) (baseFields t))
where
  mergeFields (t : JVal) (dest : List (String × JVal)) :
      List (String × JVal) → List (String × JVal)
  | [] => dest
  | (k, v) :: rest =>
    mergeFields t
      (jsSetField dest k
        (if jsHasKey t k && isMergeable v then deepMergeJV (lookupField (baseFields t) k |>.getD .undef) v else v))
      rest

/-- `sortObjectByKey` from src/utils.ts: `null`/`undefined` pass through;
otherwise a fresh plain object is built by assigning `Object.keys(obj)`
sorted by the case-insensitive trimmed comparator (stable), one property
write per key — so the resulting enumeration is the JS own-property order
of that sorted write sequence (array-index keys re-surface first, in
numeric order, ahead of the comparator order).  On arrays and strings
`Object.keys` yields the index keys, so those are rebuilt as plain objects
too; other scalars have no own keys.  The function-value rebinding branch
of the source cannot occur on decoded YAML/JSON data and is not modelled. -/
def sortObjectByKey : JVal → JVal
  | .undef => .undef
  | .null => .null
  | .obj fs => .obj (jsFreshObj (sortLe fieldLe fs))
  | .arr xs => .obj (jsFreshObj (sortLe fieldLe (arrIndexFields xs)))
  | .str s => .obj (jsFreshObj (sortLe fieldLe (strIndexFields s)))
  | _ => .obj []

/-- Recursive absence of `undefined` anywhere in a value. -/
def jvNoUndef : JVal → Bool
  | .undef => false
  | .arr xs => listNoUndef xs
  | .obj fs => fieldsNoUndef fs
  | _ => true
where
  listNoUndef : List JVal → Bool
  | [] => true
  | v :: rest => jvNoUndef v && listNoUndef rest
  fieldsNoUndef : List (String × JVal) → Bool
  | [] => true
  | (_, v) :: rest => jvNoUndef v && fieldsNoUndef rest

/-- `JSON.parse(JSON.stringify(v))`, the value-graph round trip closing
src/generate.ts: object fields whose value serializes to nothing
(`undefined`) are dropped, `undefined` array elements become `null`, and a
bare `undefined` serializes to nothing (`none`). -/
def jsonClean : JVal → Option JVal
  | .undef => none
  | .arr xs => some (.arr (cleanList xs))
  | .obj fs => some (.obj (cleanFields fs))
  | v => some v
where
  cleanList : List JVal → List JVal
  | [] => []
  | v :: rest =>
    (match jsonClean v with
     | none => .null
     | some w => w) :: cleanList rest
  cleanFields : List (String × JVal) → List (String × JVal)
  | [] => []
  | (k, v) :: rest =>
    match jsonClean v with
    | none => cleanFields rest
    | some w => (k, w) :: cleanFields rest

/-- JS `startsWith`. -/
def isPrefixCh : List Char → List Char → Bool
  | [], _ => true
  | _ :: _, [] => false
  | a :: as, b :: bs => a == b && isPrefixCh as bs

/-- JS `s.startsWith(p)`. -/
def jsStartsWith (s p : String) : Bool :=
  isPrefixCh p.data s.data

/-- JS `s.substr(n)`: the suffix from character index `n`. -/
def jsSubstrFrom (s : String) (n : Nat) : String :=
  String.mk (s.data.drop n)

/-! ### Fragment Decoder (`yamlOrJson` from src/utils.ts) -/

/-- `yamlOrJson` from src/utils.ts, parameterised by the two external
parsers (`yaml.safeLoad` of js-yaml and the built-in `JSON.parse`), each
modelled as a function that may throw (`Except.error`) or return any JS
value, including `undefined` (e.g. `safeLoad` on a bare document marker).
The function itself never throws: an empty-after-trim fragment returns
`undefined` (`JVal.undef`); otherwise the YAML parse is attempted inside
the inner `try`, a throw falls back to the JSON parse, and a throw of that
fallback is caught by the outer `try`, which returns `false`
(`JVal.bool false`), the decode-failed sentinel. -/
def yamlOrJson (yamlParse jsonParse : String → Except String JVal)
    (serializedData : String) : JVal :=
  if jsTrim serializedData == "" then .undef
  else
    match (match yamlParse serializedData with
           | .ok v => Except.ok v
           | .error _ => jsonParse serializedData : Except String JVal) with
    | .ok v => v
    | .error _ => .bool false

/-! ### Annotation Extractor (`parseJSDoc` from src/utils.ts) -/

/-- Split a character list at the leftmost occurrence of `pat`, returning
the part before the occurrence and the part after it. -/
def splitAtFirst (pat : List Char) : List Char → Option (List Char × List Char)
  | [] => none
  | c :: rest =>
    if isPrefixCh pat (c :: rest) then some ([], (c :: rest).drop pat.length)
    else
      match splitAtFirst pat rest with
      | none => none
      | some (pre, post) => some (c :: pre, post)

/-- One step list of the global regex `/\/\*\*([\s\S]*?)\*\//gm` of
src/utils.ts: each match starts at the leftmost remaining `/**` and ends at
the first `*/` after it (non-greedy); scanning resumes after the match.
An open marker with no closing marker behind it yields no further match.
The fuel argument bounds the number of matches; each match consumes at
least one character, so the length of the input is always enough. -/
def jsdocMatchesAux : Nat → List Char → List String
  | 0, _ => []
  | Nat.succ fuel, s =>
    match splitAtFirst "/**".data s with
    | none => []
    | some (_, afterOpen) =>
      match splitAtFirst "*/".data afterOpen with
      | none => []
      | some (mid, afterClose) =>
        String.mk ("/**".data ++ mid ++ "*/".data) :: jsdocMatchesAux fuel afterClose

/-- All matches of the JSDoc block regex in a source text. -/
def jsdocMatches (code : String) : List String :=
  jsdocMatchesAux code.data.length code.data

/-- One tag of a doctrine annotation: a `title` and the free-text body
(doctrine's `description` field of the tag; a missing body is the empty
string after `toStringSafe`). -/
structure JSTag where
  title : String
  description : String

/-- One doctrine annotation: free-text description plus ordered tags. -/
structure JSAnnotation where
  description : String
  tags : List JSTag

/-- `parseJSDoc` from src/utils.ts, with the external `doctrine.parse`
supplied as a parameter: every regex match is handed to the parser. -/
def parseJSDoc (doctrineParse : String → JSAnnotation) (code : String) : List JSAnnotation :=
  (jsdocMatches code).map doctrineParse

/-! ### Block Classifier (`parseSwaggerDocBlocks` from src/parse/index.ts) -/

/-- A classified documentation block (`SwaggerDocBlock` of
src/parse/index.ts).  `type` is `none` while the JS field holds
`undefined`; `details` starts out as `undefined` and is only assigned for
the two recognised kinds. -/
structure SwaggerDocBlock where
  description : Option String
  details : JVal
  jsDoc : JSAnnotation
  type : Option String

/-- One iteration of the tag loop of `parseSwaggerDocBlocks`: a tag whose
normalized title does not start with `swagger` leaves the accumulator
alone (`continue`); a matching tag overwrites the candidate type (the
title remainder after the seven prefix characters, trimmed, empty
collapsing to `undefined`) and the remembered type tag. -/
def scanStep (acc : Option String × Option JSTag) (T : JSTag) : Option String × Option JSTag :=
  let tagName := normalizeString T.title
  if !(jsStartsWith tagName "swagger") then acc
  else
    let t := jsTrim (jsSubstrFrom tagName 7)
    ((if t == "" then none else some t), some T)

/-- The tag scan of `parseSwaggerDocBlocks`: walk the tags in order. -/
def scanTags (tags : List JSTag) : Option String × Option JSTag :=
  tags.foldl scanStep (none, none)

/-- Whether one tag is a declaration tag (its normalized title starts with
`swagger`). -/
def isDeclTag (T : JSTag) : Bool :=
  jsStartsWith (normalizeString T.title) "swagger"

/-- The candidate kind contributed by one declaration tag. -/
def kindOfTag (T : JSTag) : Option String :=
  let t := jsTrim (jsSubstrFrom (normalizeString T.title) 7)
  if t == "" then none else some t

/-- The `switch (NEW_DOC.type)` of the classifier: only the kinds
`definition` and `path` get a payload decoded from the remembered type
tag's body; every other type keeps `details = undefined`. -/
def detailsFor (yamlParse jsonParse : String → Except String JVal)
    (ty : Option String) (body : String) : JVal :=
  match ty with
  | some "definition" => yamlOrJson yamlParse jsonParse body
  | some "path" => yamlOrJson yamlParse jsonParse body
  | _ => JVal.undef

/-- The classification of one annotation in the loop body of
`parseSwaggerDocBlocks`: `none` when no tag matched (the annotation is
dropped silently), otherwise the finished block.
The surrounding `try/catch` of the source is dead in this model because no
modelled operation throws (`yamlOrJson` catches internally). -/
def classifyAnnot (yamlParse jsonParse : String → Except String JVal)
    (A : JSAnnotation) : Option SwaggerDocBlock :=
  let desc0 := jsTrim A.description
  match scanTags A.tags with
  | (_, none) => none
  | (ty, some typeTag) =>
    let desc := if desc0 == "" then none else some desc0
    some { description := desc, details := detailsFor yamlParse jsonParse ty typeTag.description,
           jsDoc := A, type := ty }

/-- `parseSwaggerDocBlocks` on a list of already-extracted annotations. -/
def classifyAnnotations (yamlParse jsonParse : String → Except String JVal)
    (anns : List JSAnnotation) : List SwaggerDocBlock :=
  anns.filterMap (classifyAnnot yamlParse jsonParse)

/-- `parseSwaggerDocBlocks` from src/parse/index.ts end to end: extract the
JSDoc annotations of a source text, then classify each one. -/
def parseSwaggerDocBlocks (doctrineParse : String → JSAnnotation)
    (yamlParse jsonParse : String → Except String JVal) (code : String) : List SwaggerDocBlock :=
  classifyAnnotations yamlParse jsonParse (parseJSDoc doctrineParse code)

/-! ### Document Merger (`generateSwaggerV2Document` from src/generate.ts) -/

/-- `GenerateSwaggerV2DocumentOptions`: every field optional; `schemes`
already brought into array form (`asArray` wraps a single scheme and an
absent field becomes the empty list); `tags` a name-to-description map in
insertion order; `info` and `externalDocs` passed through verbatim. -/
structure GenerateOptions where
  basePath : Option String := none
  externalDocs : Option JVal := none
  host : Option String := none
  info : Option JVal := none
  schemes : List String := []
  tags : Option (List (String × String)) := none

/-- `isEmptyString` from src/utils.ts on a possibly-absent string. -/
def isEmptyStrOpt (s : Option String) : Bool :=
  normalizeStrOpt s == ""

/-- The path blocks of the input (`'path' === normalizeString(b.type)`). -/
def pathBlocksOf (blocks : List SwaggerDocBlock) : List SwaggerDocBlock :=
  blocks.filter (fun b => normalizeStrOpt b.type == "path")

/-- The definition blocks of the input. -/
def definitionBlocksOf (blocks : List SwaggerDocBlock) : List SwaggerDocBlock :=
  blocks.filter (fun b => normalizeStrOpt b.type == "definition")

/-- The per-block body of the `// paths` loop: for every key of the block's
details (in `for ... in` order), seed the aggregate entry for the trimmed
key with `{}` when it is nil, then deep-merge the block's sub-document into
it and key-sort the merged entry. -/
def mergePathDetails (acc : List (String × JVal)) (details : JVal) : List (String × JVal) :=
  (jsOwnFields details).foldl
    (fun acc2 kv =>
      let pathProp := jsTrim kv.1
      let cur :=
        match lookupField acc2 pathProp with
        | none => JVal.obj []
        | some v => if jsIsNil v then JVal.obj [] else v
      jsSetField acc2 pathProp (sortObjectByKey (deepMergeJV cur kv.2)))
    acc

/-- The `// paths` aggregation over all path blocks: blocks with a falsy
payload (`undefined`, decode-failed `false`, `null`, …) are skipped. -/
def pathsAggregate (pbs : List SwaggerDocBlock) : List (String × JVal) :=
  pbs.foldl (fun acc pb => if jvTruthy pb.details then mergePathDetails acc pb.details else acc) []

/-- The per-block body of the `// definitions` loop: last write wins per
trimmed definition name, no deep merge. -/
def mergeDefDetails (acc : List (String × JVal)) (details : JVal) : List (String × JVal) :=
  (jsOwnFields details).foldl (fun acc2 kv => jsSetField acc2 (jsTrim kv.1) kv.2) acc

/-- The `// definitions` aggregation over all definition blocks. -/
def definitionsAggregate (dbs : List SwaggerDocBlock) : List (String × JVal) :=
  dbs.foldl (fun acc db => if jvTruthy db.details then mergeDefDetails acc db.details else acc) []

/-- The final value of the `paths` slot of the document before the JSON
round trip: `undefined` when there is no path block at all, else the
key-sorted aggregate (which is `{}` when every path block was skipped). -/
def pathsJVal (blocks : List SwaggerDocBlock) : JVal :=
  let pbs := pathBlocksOf blocks
  if pbs.isEmpty then .undef else sortObjectByKey (.obj (pathsAggregate pbs))

/-- The final value of the `definitions` slot before the JSON round trip. -/
def definitionsJVal (blocks : List SwaggerDocBlock) : JVal :=
  let dbs := definitionBlocksOf blocks
  if dbs.isEmpty then .undef else sortObjectByKey (.obj (definitionsAggregate dbs))

/-- The final value of the `tags` slot: absent map keeps `undefined`; a
supplied map yields `{name, description}` entries for its keys sorted by
the normalized comparator. -/
def tagsJVal (opts : GenerateOptions) : JVal :=
  match opts.tags with
  | none => .undef
  | some m =>
    .arr ((sortLe keyLe (m.map Prod.fst)).map
      (fun n => .obj
        [("name", .str n),
         ("description", .str (((m.lookup n).getD "")))]))

/-- The normalized scheme list of the options. -/
def schemesOf (opts : GenerateOptions) : List String :=
  (opts.schemes.map normalizeString).filter (fun s => s != "")

/-- The `DOC` literal of `generateSwaggerV2Document` after all three loops
have run, field for field in source order, with `undefined` for every slot
the source leaves unset. -/
def rawDoc (blocks : List SwaggerDocBlock) (opts : GenerateOptions) : JVal :=
  .obj
    [("swagger", .str "2.0"),
     ("info", (opts.info).getD .undef),
     ("host", if isEmptyStrOpt opts.host then .undef else .str (jsTrim (opts.host.getD ""))),
     ("tags", tagsJVal opts),
     ("schemes", if (schemesOf opts).isEmpty then .undef else .arr ((schemesOf opts).map .str)),
     ("paths", pathsJVal blocks),
     ("definitions", definitionsJVal blocks),
     ("externalDocs", (opts.externalDocs).getD .undef),
     ("basePath", if isEmptyStrOpt opts.basePath then .undef else .str (opts.basePath.getD ""))]

/-- `generateSwaggerV2Document` from src/generate.ts: build the document
and round-trip it through `JSON.parse(JSON.stringify(...))` (the top value
is an object, so the round trip never degenerates; `.getD .null` is dead). -/
def generateSwaggerV2Document (blocks : List SwaggerDocBlock) (opts : GenerateOptions) : JVal :=
  (jsonClean (rawDoc blocks opts)).getD .null

/-- Field read on a document value. -/
def getField (v : JVal) (k : String) : Option JVal :=
  match v with
  | .obj fs => lookupField fs k
  | _ => none

/-! ### Order lemmas for the key comparator -/

theorem ltCodes_asymm : ∀ {a b : List Nat}, ltCodes a b = true → ltCodes b a = false := by
  intro a
  induction a with
  | nil =>
    intro b h
    cases b with
    | nil => simp [ltCodes] at h
    | cons y ys => simp [ltCodes]
  | cons x xs ih =>
    intro b h
    cases b with
    | nil => simp [ltCodes] at h
    | cons y ys =>
      simp only [ltCodes] at h ⊢
      split_ifs at h ⊢ with h1 h2 h3 h4 <;> first | rfl | omega | exact ih h | simp_all

theorem ltCodes_eq_of_both_false :
    ∀ {a b : List Nat}, ltCodes a b = false → ltCodes b a = false → a = b := by
  intro a
  induction a with
  | nil =>
    intro b h1 h2
    cases b with
    | nil => rfl
    | cons y ys => simp [ltCodes] at h1
  | cons x xs ih =>
    intro b h1 h2
    cases b with
    | nil => simp [ltCodes] at h2
    | cons y ys =>
      simp only [ltCodes] at h1 h2
      split_ifs at h1 h2 with h3 h4 <;> first | omega | skip
      have hxy : x = y := by omega
      have := ih h1 h2
      simp [hxy, this]

theorem ltCodes_trans :
    ∀ {a b c : List Nat}, ltCodes a b = true → ltCodes b c = true → ltCodes a c = true := by
  intro a
  induction a with
  | nil =>
    intro b c h1 h2
    cases b with
    | nil => simp [ltCodes] at h1
    | cons y ys =>
      cases c with
      | nil => simp [ltCodes] at h2
      | cons z zs => simp [ltCodes]
  | cons x xs ih =>
    intro b c h1 h2
    cases b with
    | nil => simp [ltCodes] at h1
    | cons y ys =>
      cases c with
      | nil => simp [ltCodes] at h2
      | cons z zs =>
        simp only [ltCodes] at h1 h2 ⊢
        split_ifs at h1 h2 ⊢ with h3 h4 h5 h6 h7 h8 <;>
          first | rfl | omega | (exact ih h1 h2) | simp_all

theorem keyLe_total (x y : String) (h : keyLe x y = false) : keyLe y x = true := by
  simp only [keyLe, jsStrLt, Bool.not_eq_false'] at h
  simp only [keyLe, jsStrLt, Bool.not_eq_true']
  exact ltCodes_asymm h

theorem keyLe_trans (x y z : String) (h1 : keyLe x y = true) (h2 : keyLe y z = true) :
    keyLe x z = true := by
  simp only [keyLe, jsStrLt, Bool.not_eq_true'] at h1 h2 ⊢
  by_contra hc
  rw [Bool.not_eq_false] at hc
  rcases h3 : ltCodes (strCodes (normalizeString x)) (strCodes (normalizeString y)) with _ | _
  · have hxy := ltCodes_eq_of_both_false h3 h1
    rw [hxy] at hc
    rw [hc] at h2
    cases h2
  · have := ltCodes_trans hc h3
    rw [this] at h2
    cases h2

/-! ### Sortedness of the stable sort -/

theorem mem_insertLe {le : α → α → Bool} {a x : α} :
    ∀ {l : List α}, x ∈ insertLe le a l → x = a ∨ x ∈ l := by
  intro l
  induction l with
  | nil => intro h; simpa [insertLe] using h
  | cons b bs ih =>
    intro h
    simp only [insertLe] at h
    split_ifs at h with hle
    · rcases List.mem_cons.mp h with h | h
      · right; simp [h]
      · rcases ih h with h | h
        · left; exact h
        · right; simp [h]
    · rcases List.mem_cons.mp h with h | h
      · left; exact h
      · right; exact h

theorem pairwise_insertLe {le : α → α → Bool}
    (htot : ∀ x y, le x y = false → le y x = true)
    (htrans : ∀ x y z, le x y = true → le y z = true → le x z = true) :
    ∀ {l : List α} {a : α}, l.Pairwise (fun u v => le u v = true) →
      (insertLe le a l).Pairwise (fun u v => le u v = true) := by
  intro l
  induction l with
  | nil => intro a _; simp [insertLe]
  | cons b bs ih =>
    intro a h
    rcases List.pairwise_cons.mp h with ⟨hb, hbs⟩
    simp only [insertLe]
    split_ifs with hle
    · refine List.pairwise_cons.mpr ⟨?_, ih hbs⟩
      intro x hx
      rcases mem_insertLe hx with rfl | hx
      · exact hle
      · exact hb x hx
    · refine List.pairwise_cons.mpr ⟨?_, h⟩
      intro x hx
      have hba := htot b a (by simpa using hle)
      rcases List.mem_cons.mp hx with rfl | hx
      · exact hba
      · exact htrans a b x hba (hb x hx)

theorem pairwise_sortLe {le : α → α → Bool}
    (htot : ∀ x y, le x y = false → le y x = true)
    (htrans : ∀ x y z, le x y = true → le y z = true → le x z = true)
    (l : List α) : (sortLe le l).Pairwise (fun u v => le u v = true) := by
  suffices h : ∀ acc : List α, acc.Pairwise (fun u v => le u v = true) →
      (l.foldl (fun acc a => insertLe le a acc) acc).Pairwise (fun u v => le u v = true) by
    exact h [] (by simp)
  induction l with
  | nil => intro acc hacc; simpa using hacc
  | cons a rest ih =>
    intro acc hacc
    exact ih (insertLe le a acc) (pairwise_insertLe htot htrans hacc)

theorem fieldLe_total (x y : String × JVal) (h : fieldLe x y = false) : fieldLe y x = true :=
  keyLe_total x.1 y.1 h

theorem fieldLe_trans (x y z : String × JVal) (h1 : fieldLe x y = true)
    (h2 : fieldLe y z = true) : fieldLe x z = true :=
  keyLe_trans x.1 y.1 z.1 h1 h2

/-- Writing any key into the empty object yields the one-field object,
whichever branch (index weave or append) the write takes. -/
theorem jsSetField_nil (k : String) (v : JVal) : jsSetField [] k v = [(k, v)] := by
  rcases h : isArrayIndexKey k with _ | _ <;>
    simp [jsSetField, lookupField, h, insertIndexEntry]

/-- A fresh object with a single write is that one field. -/
theorem jsFreshObj_single (k : String) (v : JVal) : jsFreshObj [(k, v)] = [(k, v)] := by
  show jsSetField [] k v = [(k, v)]
  exact jsSetField_nil k v

/-- Key-sorting a one-field object returns it unchanged. -/
theorem sortObjectByKey_single (k : String) (v : JVal) :
    sortObjectByKey (.obj [(k, v)]) = .obj [(k, v)] := by
  show JVal.obj (jsFreshObj (sortLe fieldLe [(k, v)])) = _
  rw [show sortLe fieldLe [(k, v)] = [(k, v)] from rfl, jsFreshObj_single]

/-! ### Lemmas about the JSON round trip -/

mutual

theorem jsonClean_of_noUndef : ∀ v : JVal, jvNoUndef v = true → jsonClean v = some v
  | .undef, h => by simp [jvNoUndef] at h
  | .null, _ => rfl
  | .bool _, _ => rfl
  | .num _, _ => rfl
  | .str _, _ => rfl
  | .arr xs, h => by
    have hl := cleanList_of_noUndef xs (by simpa [jvNoUndef] using h)
    simp [jsonClean, hl]
  | .obj fs, h => by
    have hf := cleanFields_of_noUndef fs (by simpa [jvNoUndef] using h)
    simp [jsonClean, hf]

theorem cleanList_of_noUndef :
    ∀ xs : List JVal, jvNoUndef.listNoUndef xs = true → jsonClean.cleanList xs = xs
  | [], _ => rfl
  | v :: rest, h => by
    have hv : jvNoUndef v = true := by
      have := h
      simp [jvNoUndef.listNoUndef, Bool.and_eq_true] at this
      exact this.1
    have hr : jvNoUndef.listNoUndef rest = true := by
      have := h
      simp [jvNoUndef.listNoUndef, Bool.and_eq_true] at this
      exact this.2
    simp [jsonClean.cleanList, jsonClean_of_noUndef v hv, cleanList_of_noUndef rest hr]

theorem cleanFields_of_noUndef :
    ∀ fs : List (String × JVal), jvNoUndef.fieldsNoUndef fs = true → jsonClean.cleanFields fs = fs
  | [], _ => rfl
  | (k, v) :: rest, h => by
    have hv : jvNoUndef v = true := by
      have := h
      simp [jvNoUndef.fieldsNoUndef, Bool.and_eq_true] at this
      exact this.1
    have hr : jvNoUndef.fieldsNoUndef rest = true := by
      have := h
      simp [jvNoUndef.fieldsNoUndef, Bool.and_eq_true] at this
      exact this.2
    simp [jsonClean.cleanFields, jsonClean_of_noUndef v hv, cleanFields_of_noUndef rest hr]

end

mutual

theorem jvNoUndef_of_jsonClean : ∀ v w : JVal, jsonClean v = some w → jvNoUndef w = true
  | .undef, w, h => by simp [jsonClean] at h
  | .null, w, h => by
    injection h with h
    subst h
    rfl
  | .bool _, w, h => by
    injection h with h
    subst h
    rfl
  | .num _, w, h => by
    injection h with h
    subst h
    rfl
  | .str _, w, h => by
    injection h with h
    subst h
    rfl
  | .arr xs, w, h => by
    injection h with h
    subst h
    simpa [jvNoUndef] using listNoUndef_cleanList xs
  | .obj fs, w, h => by
    injection h with h
    subst h
    simpa [jvNoUndef] using fieldsNoUndef_cleanFields fs

theorem listNoUndef_cleanList :
    ∀ xs : List JVal, jvNoUndef.listNoUndef (jsonClean.cleanList xs) = true
  | [] => rfl
  | v :: rest => by
    have hr := listNoUndef_cleanList rest
    rcases hv : jsonClean v with _ | w
    · simp [jsonClean.cleanList, hv, jvNoUndef.listNoUndef, hr, jvNoUndef]
    · have hw := jvNoUndef_of_jsonClean v w hv
      simp [jsonClean.cleanList, hv, jvNoUndef.listNoUndef, hr, hw]

theorem fieldsNoUndef_cleanFields :
    ∀ fs : List (String × JVal), jvNoUndef.fieldsNoUndef (jsonClean.cleanFields fs) = true
  | [] => rfl
  | (k, v) :: rest => by
    have hr := fieldsNoUndef_cleanFields rest
    rcases hv : jsonClean v with _ | w
    · simp [jsonClean.cleanFields, hv, hr]
    · have hw := jvNoUndef_of_jsonClean v w hv
      simp [jsonClean.cleanFields, hv, jvNoUndef.fieldsNoUndef, hr, hw]

end

/-- Looking a key up in cleaned fields skips an entry with a different key. -/
theorem lookup_cleanFields_skip (k k' : String) (v : JVal) (rest : List (String × JVal))
    (h : (k' == k) = false) :
    lookupField (jsonClean.cleanFields ((k', v) :: rest)) k
      = lookupField (jsonClean.cleanFields rest) k := by
  rcases hv : jsonClean v with _ | w
  · simp [jsonClean.cleanFields, hv]
  · simp [jsonClean.cleanFields, hv, lookupField, h]

/-- Looking a key up in cleaned fields finds the cleaned head value when the
head key matches and its value survives the round trip. -/
theorem lookup_cleanFields_head (k : String) (v w : JVal) (rest : List (String × JVal))
    (h : jsonClean v = some w) :
    lookupField (jsonClean.cleanFields ((k, v) :: rest)) k = some w := by
  simp [jsonClean.cleanFields, h, lookupField]

/-- Looking a key up in cleaned fields falls through when the head key
matches but its value is dropped by the round trip. -/
theorem lookup_cleanFields_drop (k : String) (v : JVal) (rest : List (String × JVal))
    (h : jsonClean v = none) :
    lookupField (jsonClean.cleanFields ((k, v) :: rest)) k
      = lookupField (jsonClean.cleanFields rest) k := by
  simp [jsonClean.cleanFields, h]

/-- The `paths` field of every generated document is exactly the JSON round
trip of the paths slot. -/
theorem getField_generate_paths (blocks : List SwaggerDocBlock) (opts : GenerateOptions) :
    getField (generateSwaggerV2Document blocks opts) "paths" = jsonClean (pathsJVal blocks) := by
  show lookupField (jsonClean.cleanFields _) "paths" = _
  rw [lookup_cleanFields_skip _ _ _ _ (by decide),
    lookup_cleanFields_skip _ _ _ _ (by decide),
    lookup_cleanFields_skip _ _ _ _ (by decide),
    lookup_cleanFields_skip _ _ _ _ (by decide),
    lookup_cleanFields_skip _ _ _ _ (by decide)]
  rcases hv : jsonClean (pathsJVal blocks) with _ | w
  · rw [lookup_cleanFields_drop _ _ _ hv,
      lookup_cleanFields_skip _ _ _ _ (by decide),
      lookup_cleanFields_skip _ _ _ _ (by decide),
      lookup_cleanFields_skip _ _ _ _ (by decide)]
    rfl
  · exact lookup_cleanFields_head _ _ _ _ hv

/-- The `definitions` field of every generated document is exactly the JSON
round trip of the definitions slot. -/
theorem getField_generate_definitions (blocks : List SwaggerDocBlock) (opts : GenerateOptions) :
    getField (generateSwaggerV2Document blocks opts) "definitions"
      = jsonClean (definitionsJVal blocks) := by
  show lookupField (jsonClean.cleanFields _) "definitions" = _
  rw [lookup_cleanFields_skip _ _ _ _ (by decide),
    lookup_cleanFields_skip _ _ _ _ (by decide),
    lookup_cleanFields_skip _ _ _ _ (by decide),
    lookup_cleanFields_skip _ _ _ _ (by decide),
    lookup_cleanFields_skip _ _ _ _ (by decide),
    lookup_cleanFields_skip _ _ _ _ (by decide)]
  rcases hv : jsonClean (definitionsJVal blocks) with _ | w
  · rw [lookup_cleanFields_drop _ _ _ hv,
      lookup_cleanFields_skip _ _ _ _ (by decide),
      lookup_cleanFields_skip _ _ _ _ (by decide)]
    rfl
  · exact lookup_cleanFields_head _ _ _ _ hv

/-! ### Helper lemmas about the classifier and the merger -/

theorem scanStep_skip (acc : Option String × Option JSTag) (T : JSTag)
    (h : isDeclTag T = false) : scanStep acc T = acc := by
  simp only [scanStep]
  rw [show jsStartsWith (normalizeString T.title) "swagger" = false from h]
  rfl

theorem scanStep_decl (acc : Option String × Option JSTag) (T : JSTag)
    (h : isDeclTag T = true) : scanStep acc T = (kindOfTag T, some T) := by
  simp only [scanStep, kindOfTag]
  rw [show jsStartsWith (normalizeString T.title) "swagger" = true from h]
  rfl

theorem foldl_scanStep_skip (post : List JSTag) (acc : Option String × Option JSTag)
    (h : ∀ U ∈ post, isDeclTag U = false) : post.foldl scanStep acc = acc := by
  induction post generalizing acc with
  | nil => rfl
  | cons U rest ih =>
    rw [List.foldl_cons, scanStep_skip acc U (h U (by simp))]
    exact ih acc (fun V hV => h V (by simp [hV]))

theorem scanTags_last_decl (pre post : List JSTag) (T : JSTag)
    (hT : isDeclTag T = true) (hpost : ∀ U ∈ post, isDeclTag U = false) :
    scanTags (pre ++ T :: post) = (kindOfTag T, some T) := by
  rw [scanTags, List.foldl_append, List.foldl_cons,
    scanStep_decl _ T hT, foldl_scanStep_skip post _ hpost]

theorem scanTags_none (tags : List JSTag) (h : ∀ T ∈ tags, isDeclTag T = false) :
    scanTags tags = (none, none) :=
  foldl_scanStep_skip tags (none, none) h

theorem mem_cleanFields :
    ∀ {fs : List (String × JVal)} {p : String × JVal},
      p ∈ jsonClean.cleanFields fs → ∃ v0, (p.1, v0) ∈ fs := by
  intro fs
  induction fs with
  | nil => intro p h; simp [jsonClean.cleanFields] at h
  | cons kv rest ih =>
    rcases kv with ⟨k, v⟩
    intro p h
    rcases hv : jsonClean v with _ | w
    · rw [jsonClean.cleanFields, hv] at h
      rcases ih h with ⟨v0, h0⟩
      exact ⟨v0, by simp [h0]⟩
    · rw [jsonClean.cleanFields, hv] at h
      rcases List.mem_cons.mp h with h | h
      · exact ⟨v, by simp [show p.1 = k from by rw [h]]⟩
      · rcases ih h with ⟨v0, h0⟩
        exact ⟨v0, by simp [h0]⟩

theorem pairwise_cleanFields_key (R : String → String → Prop) (fs : List (String × JVal))
    (h : fs.Pairwise (fun u w => R u.1 w.1)) :
    (jsonClean.cleanFields fs).Pairwise (fun u w => R u.1 w.1) := by
  induction fs with
  | nil => simpa [jsonClean.cleanFields] using h
  | cons kv rest ih =>
    rcases kv with ⟨k, v⟩
    rcases List.pairwise_cons.mp h with ⟨hk, hrest⟩
    rcases hv : jsonClean v with _ | w
    · rw [jsonClean.cleanFields, hv]
      exact ih hrest
    · rw [jsonClean.cleanFields, hv]
      refine List.pairwise_cons.mpr ⟨?_, ih hrest⟩
      intro p hp
      rcases mem_cleanFields hp with ⟨v0, h0⟩
      exact hk (p.1, v0) h0

theorem listNoUndef_append (xs ys : List JVal)
    (hx : jvNoUndef.listNoUndef xs = true) (hy : jvNoUndef.listNoUndef ys = true) :
    jvNoUndef.listNoUndef (xs ++ ys) = true := by
  induction xs with
  | nil => simpa using hy
  | cons v rest ih =>
    rw [jvNoUndef.listNoUndef, Bool.and_eq_true] at hx
    rw [List.cons_append, jvNoUndef.listNoUndef, Bool.and_eq_true]
    exact ⟨hx.1, ih hx.2⟩

theorem pathsAggregate_all_skipped (pbs : List SwaggerDocBlock)
    (h : ∀ pb ∈ pbs, jvTruthy pb.details = false) : pathsAggregate pbs = [] := by
  have haux : ∀ l : List SwaggerDocBlock, (∀ pb ∈ l, jvTruthy pb.details = false) →
      ∀ acc, l.foldl (fun acc pb => if jvTruthy pb.details then mergePathDetails acc pb.details else acc) acc = acc := by
    intro l
    induction l with
    | nil => intro _ acc; rfl
    | cons pb rest ih =>
      intro hl acc
      rw [List.foldl_cons, if_neg (by simp [hl pb (by simp)])]
      exact ih (fun q hq => hl q (by simp [hq])) acc
  exact haux pbs h []

theorem definitionsAggregate_all_skipped (dbs : List SwaggerDocBlock)
    (h : ∀ db ∈ dbs, jvTruthy db.details = false) : definitionsAggregate dbs = [] := by
  have haux : ∀ l : List SwaggerDocBlock, (∀ db ∈ l, jvTruthy db.details = false) →
      ∀ acc, l.foldl (fun acc db => if jvTruthy db.details then mergeDefDetails acc db.details else acc) acc = acc := by
    intro l
    induction l with
    | nil => intro _ acc; rfl
    | cons db rest ih =>
      intro hl acc
      rw [List.foldl_cons, if_neg (by simp [hl db (by simp)])]
      exact ih (fun q hq => hl q (by simp [hq])) acc
  exact haux dbs h []

/-! ### Claim theorems -/

/-- C5: for every input fragment, the Fragment Decoder returns the
distinguished no-value result (`undefined`) when the fragment trims to
empty; otherwise it attempts the YAML parse first and, only if that parse
throws, attempts the strict JSON parse; if both attempts fail it returns
the decode-failed sentinel (`false`).  It never throws to its caller: it
is a total function into values. -/
theorem yamlOrJson_decode_control_flow (yp jp : String → Except String JVal) (s : String) :
    (jsTrim s = "" → yamlOrJson yp jp s = .undef) ∧
    (jsTrim s ≠ "" →
      (∀ v, yp s = .ok v → yamlOrJson yp jp s = v) ∧
      (∀ e v, yp s = .error e → jp s = .ok v → yamlOrJson yp jp s = v) ∧
      (∀ e e', yp s = .error e → jp s = .error e' → yamlOrJson yp jp s = .bool false)) := by
  constructor
  · intro h
    simp [yamlOrJson, h]
  · intro h
    have hbeq : (jsTrim s == "") = false := by
      simpa using h
    refine ⟨?_, ?_, ?_⟩
    · intro v hv
      simp [yamlOrJson, hbeq, hv]
    · intro e v he hv
      simp [yamlOrJson, hbeq, he, hv]
    · intro e e' he he'
      simp [yamlOrJson, hbeq, he, he']

/-- Witness for C5 at a concrete undecodable fragment. -/
theorem yamlOrJson_decode_control_flow_witness :
    yamlOrJson (fun _ => .error "yamlfail") (fun _ => .error "jsonfail") "\x7b unterminated"
      = .bool false :=
  ((yamlOrJson_decode_control_flow (fun _ => .error "yamlfail") (fun _ => .error "jsonfail")
      "\x7b unterminated").2 (by decide)).2.2 "yamlfail" "jsonfail" rfl rfl

/-- C6: on an annotation carrying more than one declaration tag, the
classifier resolves the kind and the decoded payload from the last such
tag: the produced block's `type` is that tag's title remainder after the
`swagger` prefix (trimmed, lowercased), and its `details` are decoded from
that tag's body. -/
theorem classifier_last_declaration_tag_wins
    (yp jp : String → Except String JVal) (A : JSAnnotation)
    (pre post : List JSTag) (T : JSTag)
    (hsplit : A.tags = pre ++ T :: post)
    (hT : isDeclTag T = true)
    (hpost : ∀ U ∈ post, isDeclTag U = false)
    (hmulti : ∃ U ∈ pre, isDeclTag U = true) :
    ∃ block, classifyAnnot yp jp A = some block ∧
      block.type = kindOfTag T ∧
      block.details = detailsFor yp jp (kindOfTag T) T.description := by
  have hscan : scanTags A.tags = (kindOfTag T, some T) := by
    rw [hsplit]
    exact scanTags_last_decl pre post T hT hpost
  have hclass : classifyAnnot yp jp A
      = some { description := if jsTrim A.description == "" then none
                 else some (jsTrim A.description),
               details := detailsFor yp jp (kindOfTag T) T.description,
               jsDoc := A, type := kindOfTag T } := by
    simp only [classifyAnnot, hscan]
  exact ⟨_, hclass, rfl, rfl⟩

/-- Witness for C6: a `swaggerPath` tag followed by a `swaggerDefinition`
tag classifies as kind `definition` (the last declaration tag wins, and
`swaggerDefinition` yields `definition`). -/
theorem classifier_last_declaration_tag_wins_witness :
    (∃ block,
      classifyAnnot (fun _ => .error "y") (fun _ => .error "j")
          ⟨"", [⟨"swaggerPath", "p"⟩, ⟨"swaggerDefinition", "d"⟩]⟩ = some block ∧
      block.type = kindOfTag ⟨"swaggerDefinition", "d"⟩ ∧
      block.details = detailsFor (fun _ => .error "y") (fun _ => .error "j")
          (kindOfTag ⟨"swaggerDefinition", "d"⟩) "d") ∧
    kindOfTag ⟨"swaggerDefinition", "d"⟩ = some "definition" :=
  ⟨classifier_last_declaration_tag_wins (fun _ => .error "y") (fun _ => .error "j")
      ⟨"", [⟨"swaggerPath", "p"⟩, ⟨"swaggerDefinition", "d"⟩]⟩
      [⟨"swaggerPath", "p"⟩] [] ⟨"swaggerDefinition", "d"⟩ rfl rfl
      (by intro U hU; simp at hU)
      ⟨⟨"swaggerPath", "p"⟩, by simp, rfl⟩,
    rfl⟩

/-- C7: an annotation none of whose tags has a title with prefix `swagger`
produces no documentation block: the classifier yields `none`, dropping it
from any surrounding annotation list changes nothing, and the generated
document is unchanged. -/
theorem classifier_drops_undeclared_annot
    (yp jp : String → Except String JVal) (A : JSAnnotation)
    (h : ∀ T ∈ A.tags, isDeclTag T = false) :
    classifyAnnot yp jp A = none ∧
    (∀ (pre post : List JSAnnotation) (opts : GenerateOptions),
      classifyAnnotations yp jp (pre ++ A :: post) = classifyAnnotations yp jp (pre ++ post) ∧
      generateSwaggerV2Document (classifyAnnotations yp jp (pre ++ A :: post)) opts
        = generateSwaggerV2Document (classifyAnnotations yp jp (pre ++ post)) opts) := by
  have hscan : scanTags A.tags = (none, none) := scanTags_none A.tags h
  have hnone : classifyAnnot yp jp A = none := by
    simp only [classifyAnnot, hscan]
  refine ⟨hnone, ?_⟩
  intro pre post opts
  have hsame : classifyAnnotations yp jp (pre ++ A :: post)
      = classifyAnnotations yp jp (pre ++ post) := by
    simp only [classifyAnnotations, List.filterMap_append]
    rw [List.filterMap_cons_none hnone]
  exact ⟨hsame, by rw [hsame]⟩

/-- Witness for C7 at a concrete annotation with only generic tags. -/
theorem classifier_drops_undeclared_annot_witness :
    classifyAnnot (fun _ => .error "y") (fun _ => .error "j")
        ⟨"summary", [⟨"param", "x"⟩, ⟨"returns", "y"⟩]⟩ = none :=
  (classifier_drops_undeclared_annot (fun _ => .error "y") (fun _ => .error "j")
      ⟨"summary", [⟨"param", "x"⟩, ⟨"returns", "y"⟩]⟩
      (by
        intro T hT
        simp only [List.mem_cons, List.not_mem_nil, or_false] at hT
        rcases hT with h | h <;> subst h <;> rfl)).1

/-- C8: the document returned by the merger contains no `undefined`-valued
field anywhere: the aggregate is round-tripped through the JSON clone,
which drops such fields. -/
theorem generated_document_no_undefined
    (blocks : List SwaggerDocBlock) (opts : GenerateOptions) :
    jvNoUndef (generateSwaggerV2Document blocks opts) = true := by
  show jvNoUndef ((jsonClean (rawDoc blocks opts)).getD .null) = true
  rcases h : jsonClean (rawDoc blocks opts) with _ | w
  · rw [show jsonClean (rawDoc blocks opts)
      = some (.obj (jsonClean.cleanFields _)) from rfl] at h
    cases h
  · simpa using jvNoUndef_of_jsonClean _ _ h

/-- C9: a source text with zero doc-comment matches yields an empty block
sequence, and the end-to-end pipeline over it yields a document in which
both `paths` and `definitions` are absent. -/
theorem empty_source_empty_document
    (dp : String → JSAnnotation) (yp jp : String → Except String JVal)
    (code : String) (opts : GenerateOptions)
    (h : jsdocMatches code = []) :
    parseSwaggerDocBlocks dp yp jp code = [] ∧
    getField (generateSwaggerV2Document (parseSwaggerDocBlocks dp yp jp code) opts)
        "paths" = none ∧
    getField (generateSwaggerV2Document (parseSwaggerDocBlocks dp yp jp code) opts)
        "definitions" = none := by
  have hempty : parseSwaggerDocBlocks dp yp jp code = [] := by
    rw [parseSwaggerDocBlocks, parseJSDoc, h]
    rfl
  refine ⟨hempty, ?_, ?_⟩
  · rw [hempty, getField_generate_paths]
    rfl
  · rw [hempty, getField_generate_definitions]
    rfl

/-- Witness for C9 at a concrete comment-free source text. -/
theorem empty_source_empty_document_witness :
    parseSwaggerDocBlocks (fun _ => ⟨"", []⟩) (fun _ => .error "y") (fun _ => .error "j")
        "const answer = 42; // no doc comments here" = [] ∧
    getField (generateSwaggerV2Document
        (parseSwaggerDocBlocks (fun _ => ⟨"", []⟩) (fun _ => .error "y") (fun _ => .error "j")
          "const answer = 42; // no doc comments here") {}) "paths" = none ∧
    getField (generateSwaggerV2Document
        (parseSwaggerDocBlocks (fun _ => ⟨"", []⟩) (fun _ => .error "y") (fun _ => .error "j")
          "const answer = 42; // no doc comments here") {}) "definitions" = none :=
  empty_source_empty_document (fun _ => ⟨"", []⟩) (fun _ => .error "y") (fun _ => .error "j")
    "const answer = 42; // no doc comments here" {} rfl

/-- C10: when at least one path block exists but every path block's payload
is the no-value result or the decode-failed sentinel, the document still
carries a `paths` key bound to the empty mapping (presence is decided by
counting blocks of the kind before payloads are examined); symmetrically
for definition blocks and `definitions`. -/
theorem unusable_payloads_keep_empty_mapping
    (blocks : List SwaggerDocBlock) (opts : GenerateOptions) :
    ((∀ b ∈ blocks, normalizeStrOpt b.type = "path" →
        (b.details = .undef ∨ b.details = .bool false)) →
      (∃ b ∈ blocks, normalizeStrOpt b.type = "path") →
      getField (generateSwaggerV2Document blocks opts) "paths" = some (.obj [])) ∧
    ((∀ b ∈ blocks, normalizeStrOpt b.type = "definition" →
        (b.details = .undef ∨ b.details = .bool false)) →
      (∃ b ∈ blocks, normalizeStrOpt b.type = "definition") →
      getField (generateSwaggerV2Document blocks opts) "definitions" = some (.obj [])) := by
  constructor
  · intro hall hex
    obtain ⟨b0, hb0, hb0p⟩ := hex
    have hmem : b0 ∈ pathBlocksOf blocks :=
      List.mem_filter.mpr ⟨hb0, by simp [hb0p]⟩
    have hne : (pathBlocksOf blocks).isEmpty = false := by
      cases hpb : pathBlocksOf blocks with
      | nil => rw [hpb] at hmem; cases hmem
      | cons a l => rfl
    have hskip : pathsAggregate (pathBlocksOf blocks) = [] := by
      apply pathsAggregate_all_skipped
      intro pb hpb
      rcases List.mem_filter.mp hpb with ⟨hmem2, htype⟩
      rcases hall pb hmem2 (by simpa using htype) with h1 | h1 <;> rw [h1] <;> rfl
    rw [getField_generate_paths]
    simp only [pathsJVal, hne, Bool.false_eq_true, if_false, hskip]
    rfl
  · intro hall hex
    obtain ⟨b0, hb0, hb0p⟩ := hex
    have hmem : b0 ∈ definitionBlocksOf blocks :=
      List.mem_filter.mpr ⟨hb0, by simp [hb0p]⟩
    have hne : (definitionBlocksOf blocks).isEmpty = false := by
      cases hpb : definitionBlocksOf blocks with
      | nil => rw [hpb] at hmem; cases hmem
      | cons a l => rfl
    have hskip : definitionsAggregate (definitionBlocksOf blocks) = [] := by
      apply definitionsAggregate_all_skipped
      intro db hdb
      rcases List.mem_filter.mp hdb with ⟨hmem2, htype⟩
      rcases hall db hmem2 (by simpa using htype) with h1 | h1 <;> rw [h1] <;> rfl
    rw [getField_generate_definitions]
    simp only [definitionsJVal, hne, Bool.false_eq_true, if_false, hskip]
    rfl

/-- Witness for C10: one decode-failed path block and one no-value
definition block still produce `paths: {}` and `definitions: {}`. -/
theorem unusable_payloads_keep_empty_mapping_witness :
    getField (generateSwaggerV2Document
        [⟨none, .bool false, ⟨"", []⟩, some "path"⟩,
         ⟨none, .undef, ⟨"", []⟩, some "definition"⟩] {}) "paths" = some (.obj []) ∧
    getField (generateSwaggerV2Document
        [⟨none, .bool false, ⟨"", []⟩, some "path"⟩,
         ⟨none, .undef, ⟨"", []⟩, some "definition"⟩] {}) "definitions" = some (.obj []) :=
  ⟨(unusable_payloads_keep_empty_mapping
      [⟨none, .bool false, ⟨"", []⟩, some "path"⟩,
       ⟨none, .undef, ⟨"", []⟩, some "definition"⟩] {}).1
      (by
        intro b hb
        simp only [List.mem_cons, List.not_mem_nil, or_false] at hb
        rcases hb with h | h
        · subst h; intro _; right; rfl
        · subst h; intro _; left; rfl)
      ⟨⟨none, .bool false, ⟨"", []⟩, some "path"⟩, by simp, rfl⟩,
    (unusable_payloads_keep_empty_mapping
      [⟨none, .bool false, ⟨"", []⟩, some "path"⟩,
       ⟨none, .undef, ⟨"", []⟩, some "definition"⟩] {}).2
      (by
        intro b hb
        simp only [List.mem_cons, List.not_mem_nil, or_false] at hb
        rcases hb with h | h
        · subst h; intro hp; exact absurd hp (by decide)
        · subst h; intro _; left; rfl)
      ⟨⟨none, .undef, ⟨"", []⟩, some "definition"⟩, by simp, rfl⟩⟩

/-- C1: two path blocks whose decoded mappings carry the same path key
(after trimming), one contributing `{get: ...}` and the later `{post: ...}`,
compose into one entry for that key containing both `get` and `post`; the
second block does not clobber the first. -/
theorem path_blocks_same_key_compose
    (k₁ k₂ : String) (g p : JVal) (d₁ d₂ : Option String) (j₁ j₂ : JSAnnotation)
    (opts : GenerateOptions)
    (hk : jsTrim k₁ = jsTrim k₂)
    (hg : jvNoUndef g = true) (hp : jvNoUndef p = true) :
    getField (generateSwaggerV2Document
        [⟨d₁, .obj [(k₁, .obj [("get", g)])], j₁, some "path"⟩,
         ⟨d₂, .obj [(k₂, .obj [("post", p)])], j₂, some "path"⟩] opts) "paths"
      = some (.obj [(jsTrim k₁, .obj [("get", g), ("post", p)])]) := by
  rw [getField_generate_paths]
  have hstep2 : mergePathDetails [(jsTrim k₁, JVal.obj [("get", g)])]
      (JVal.obj [(k₂, JVal.obj [("post", p)])])
      = [(jsTrim k₁, JVal.obj [("get", g), ("post", p)])] := by
    simp only [mergePathDetails, jsOwnFields, List.foldl_cons, List.foldl_nil, ← hk]
    simp only [lookupField, beq_self_eq_true, if_true, jsIsNil, Bool.false_eq_true, if_false]
    rw [show sortObjectByKey (deepMergeJV (JVal.obj [("get", g)]) (JVal.obj [("post", p)]))
        = JVal.obj [("get", g), ("post", p)] from rfl]
    simp only [jsSetField, lookupField, beq_self_eq_true, if_true, List.map_cons, List.map_nil]
  have hfull : pathsJVal
      [⟨d₁, .obj [(k₁, .obj [("get", g)])], j₁, some "path"⟩,
       ⟨d₂, .obj [(k₂, .obj [("post", p)])], j₂, some "path"⟩]
      = JVal.obj [(jsTrim k₁, JVal.obj [("get", g), ("post", p)])] := by
    show sortObjectByKey (JVal.obj (mergePathDetails (mergePathDetails []
        (JVal.obj [(k₁, JVal.obj [("get", g)])])) (JVal.obj [(k₂, JVal.obj [("post", p)])]))) = _
    rw [show mergePathDetails [] (JVal.obj [(k₁, JVal.obj [("get", g)])])
        = jsSetField [] (jsTrim k₁) (JVal.obj [("get", g)]) from rfl,
      jsSetField_nil, hstep2, sortObjectByKey_single]
  rw [hfull]
  simp only [jsonClean, jsonClean.cleanFields, jsonClean_of_noUndef g hg,
    jsonClean_of_noUndef p hp]

/-- Witness for C1 at concrete keys and sub-documents. -/
theorem path_blocks_same_key_compose_witness :
    getField (generateSwaggerV2Document
        [⟨none, .obj [("/users", .obj [("get", .num 1)])], ⟨"", []⟩, some "path"⟩,
         ⟨none, .obj [(" /users ", .obj [("post", .num 2)])], ⟨"", []⟩, some "path"⟩] {}) "paths"
      = some (.obj [("/users", .obj [("get", .num 1), ("post", .num 2)])]) := by
  have h := path_blocks_same_key_compose "/users" " /users " (.num 1) (.num 2)
    none none ⟨"", []⟩ ⟨"", []⟩ {} (by decide) rfl rfl
  rw [h]
  rfl

/-- C3: two definition blocks declaring the same definition name combine by
last-write-wins on the full trimmed key: the later block's value is exactly
what appears in the final definitions mapping and the earlier block's value
is fully discarded, not merged field by field. -/
theorem definition_blocks_last_write_wins
    (n₁ n₂ : String) (v₁ v₂ : JVal) (d₁ d₂ : Option String) (j₁ j₂ : JSAnnotation)
    (opts : GenerateOptions)
    (hn : jsTrim n₁ = jsTrim n₂)
    (hv : jvNoUndef v₂ = true) :
    getField (generateSwaggerV2Document
        [⟨d₁, .obj [(n₁, v₁)], j₁, some "definition"⟩,
         ⟨d₂, .obj [(n₂, v₂)], j₂, some "definition"⟩] opts) "definitions"
      = some (.obj [(jsTrim n₁, v₂)]) := by
  rw [getField_generate_definitions]
  have hstep2 : mergeDefDetails [(jsTrim n₁, v₁)] (JVal.obj [(n₂, v₂)])
      = [(jsTrim n₁, v₂)] := by
    simp only [mergeDefDetails, jsOwnFields, List.foldl_cons, List.foldl_nil, ← hn]
    simp only [jsSetField, lookupField, beq_self_eq_true, if_true, List.map_cons, List.map_nil]
  have hfull : definitionsJVal
      [⟨d₁, .obj [(n₁, v₁)], j₁, some "definition"⟩,
       ⟨d₂, .obj [(n₂, v₂)], j₂, some "definition"⟩]
      = JVal.obj [(jsTrim n₁, v₂)] := by
    show sortObjectByKey (JVal.obj (mergeDefDetails (mergeDefDetails []
        (JVal.obj [(n₁, v₁)])) (JVal.obj [(n₂, v₂)]))) = _
    rw [show mergeDefDetails [] (JVal.obj [(n₁, v₁)])
        = jsSetField [] (jsTrim n₁) v₁ from rfl, jsSetField_nil, hstep2, sortObjectByKey_single]
  rw [hfull]
  simp only [jsonClean, jsonClean.cleanFields, jsonClean_of_noUndef v₂ hv]

/-- Witness for C3: the second `User` declaration fully replaces the first;
no field of the first survives. -/
theorem definition_blocks_last_write_wins_witness :
    getField (generateSwaggerV2Document
        [⟨none, .obj [("User", .obj [("type", .str "object"), ("old", .num 1)])], ⟨"", []⟩,
          some "definition"⟩,
         ⟨none, .obj [("User", .obj [("type", .str "string")])], ⟨"", []⟩,
          some "definition"⟩] {}) "definitions"
      = some (.obj [("User", .obj [("type", .str "string")])]) := by
  have h := definition_blocks_last_write_wins "User" "User"
    (.obj [("type", .str "object"), ("old", .num 1)]) (.obj [("type", .str "string")])
    none none ⟨"", []⟩ ⟨"", []⟩ {} rfl rfl
  rw [h]
  rfl

/-- C2 counterexample: with the deepmerge\@4 default options used by
src/generate.ts, an array value from the later path block does NOT replace
the earlier array — merging `{a: [1]}` and then `{a: [2]}` under the same
path yields `a = [1, 2]` (target concatenated with source), which differs
from the replacement result `[2]` the claim asserts. -/
theorem path_merge_array_not_replaced :
    getField (generateSwaggerV2Document
        [⟨none, .obj [("/u", .obj [("a", .arr [.num 1])])], ⟨"", []⟩, some "path"⟩,
         ⟨none, .obj [("/u", .obj [("a", .arr [.num 2])])], ⟨"", []⟩, some "path"⟩] {}) "paths"
      = some (.obj [("/u", .obj [("a", .arr [.num 1, .num 2])])]) ∧
    JVal.arr [JVal.num 1, JVal.num 2] ≠ JVal.arr [JVal.num 2] :=
  ⟨rfl, by simp⟩

/-- C2 (amended): in the path deep merge, when both the aggregate entry and
a later block's sub-document hold a value for the same nested key,
mapping-type values are combined recursively key by key (the merged nested
entry is the target field with the source field written into it by a JS
property write, so both keys are present with their values), the later
source wins on scalar conflicts, and an array-type value from the later
source is CONCATENATED after the earlier array (the deepmerge default
`arrayMerge`), rather than replacing it. -/
theorem path_merge_deep_merge_semantics :
    (∀ (k f u w : String) (a b : JVal) (d₁ d₂ : Option String) (j₁ j₂ : JSAnnotation)
        (opts : GenerateOptions),
      jvNoUndef a = true → jvNoUndef b = true → (u == w) = false →
      (getField (generateSwaggerV2Document
          [⟨d₁, .obj [(k, .obj [(f, .obj [(u, a)])])], j₁, some "path"⟩,
           ⟨d₂, .obj [(k, .obj [(f, .obj [(w, b)])])], j₂, some "path"⟩] opts) "paths"
        = some (.obj [(jsTrim k, .obj [(f, .obj (jsSetField [(u, a)] w b))])])) ∧
      lookupField (jsSetField [(u, a)] w b) u = some a ∧
      lookupField (jsSetField [(u, a)] w b) w = some b) ∧
    (∀ (k f : String) (s₁ s₂ : JVal) (d₁ d₂ : Option String) (j₁ j₂ : JSAnnotation)
        (opts : GenerateOptions),
      isMergeable s₂ = false → jvNoUndef s₂ = true →
      getField (generateSwaggerV2Document
          [⟨d₁, .obj [(k, .obj [(f, s₁)])], j₁, some "path"⟩,
           ⟨d₂, .obj [(k, .obj [(f, s₂)])], j₂, some "path"⟩] opts) "paths"
        = some (.obj [(jsTrim k, .obj [(f, s₂)])])) ∧
    (∀ (k f : String) (xs ys : List JVal) (d₁ d₂ : Option String) (j₁ j₂ : JSAnnotation)
        (opts : GenerateOptions),
      jvNoUndef (.arr xs) = true → jvNoUndef (.arr ys) = true →
      getField (generateSwaggerV2Document
          [⟨d₁, .obj [(k, .obj [(f, .arr xs)])], j₁, some "path"⟩,
           ⟨d₂, .obj [(k, .obj [(f, .arr ys)])], j₂, some "path"⟩] opts) "paths"
        = some (.obj [(jsTrim k, .obj [(f, .arr (xs ++ ys))])])) := by
  refine ⟨?_, ?_, ?_⟩
  · intro k f u w a b d₁ d₂ j₁ j₂ opts ha hb huw
    have huw' : u ≠ w := by simpa using huw
    have hwu : (w == u) = false := by simpa using (Ne.symm huw')
    have hcases : jsSetField [(u, a)] w b = [(u, a), (w, b)] ∨
        jsSetField [(u, a)] w b = [(w, b), (u, a)] := by
      by_cases hw : isArrayIndexKey w = true
      · simp only [jsSetField, lookupField, huw, Bool.false_eq_true, if_false, hw, if_true,
          insertIndexEntry]
        by_cases hc : (isArrayIndexKey u && numLtC (strCodes u) (strCodes w)) = true
        · left
          simp [hc, insertIndexEntry]
        · right
          simp only [hc, Bool.false_eq_true, if_false]
      · have hw' : isArrayIndexKey w = false := by simpa using hw
        left
        simp [jsSetField, lookupField, huw, hw']
    have hS : jvNoUndef (JVal.obj (jsSetField [(u, a)] w b)) = true := by
      rcases hcases with h | h <;>
        simp [h, jvNoUndef, jvNoUndef.fieldsNoUndef, ha, hb]
    have hlookup : lookupField (jsSetField [(u, a)] w b) u = some a ∧
        lookupField (jsSetField [(u, a)] w b) w = some b := by
      rcases hcases with h | h <;> rw [h] <;>
        exact ⟨by simp [lookupField, huw, hwu], by simp [lookupField, huw, hwu]⟩
    refine ⟨?_, hlookup.1, hlookup.2⟩
    rw [getField_generate_paths]
    have hstep2 : mergePathDetails [(jsTrim k, JVal.obj [(f, JVal.obj [(u, a)])])]
        (JVal.obj [(k, JVal.obj [(f, JVal.obj [(w, b)])])])
        = [(jsTrim k, JVal.obj [(f, JVal.obj (jsSetField [(u, a)] w b))])] := by
      simp only [mergePathDetails, jsOwnFields, List.foldl_cons, List.foldl_nil]
      simp only [lookupField, beq_self_eq_true, if_true, jsIsNil, Bool.false_eq_true, if_false]
      rw [show deepMergeJV (JVal.obj [(f, JVal.obj [(u, a)])]) (JVal.obj [(f, JVal.obj [(w, b)])])
          = JVal.obj (jsSetField [(f, JVal.obj [(u, a)])] f
              (deepMergeJV (JVal.obj [(u, a)]) (JVal.obj [(w, b)]))) from by
        simp only [deepMergeJV, deepMergeJV.mergeFields, baseFields, jsHasKey, lookupField,
          beq_self_eq_true, Option.isSome_some, isMergeable, Bool.and_self, if_true,
          Option.getD_some]]
      rw [show deepMergeJV (JVal.obj [(u, a)]) (JVal.obj [(w, b)])
          = JVal.obj (jsSetField [(u, a)] w b) from by
        simp only [deepMergeJV, deepMergeJV.mergeFields, baseFields, jsHasKey, lookupField, huw,
          Bool.false_eq_true, if_false, Option.isSome_none, Bool.false_and]]
      rw [show jsSetField [(f, JVal.obj [(u, a)])] f (JVal.obj (jsSetField [(u, a)] w b))
          = [(f, JVal.obj (jsSetField [(u, a)] w b))] from by
        simp only [jsSetField, lookupField, beq_self_eq_true, if_true, List.map_cons,
          List.map_nil]]
      rw [sortObjectByKey_single]
      simp only [jsSetField, lookupField, beq_self_eq_true, if_true, List.map_cons, List.map_nil]
    have hfull : pathsJVal
        [⟨d₁, .obj [(k, .obj [(f, .obj [(u, a)])])], j₁, some "path"⟩,
         ⟨d₂, .obj [(k, .obj [(f, .obj [(w, b)])])], j₂, some "path"⟩]
        = JVal.obj [(jsTrim k, JVal.obj [(f, JVal.obj (jsSetField [(u, a)] w b))])] := by
      show sortObjectByKey (JVal.obj (mergePathDetails (mergePathDetails []
          (JVal.obj [(k, JVal.obj [(f, JVal.obj [(u, a)])])]))
          (JVal.obj [(k, JVal.obj [(f, JVal.obj [(w, b)])])]))) = _
      rw [show mergePathDetails [] (JVal.obj [(k, JVal.obj [(f, JVal.obj [(u, a)])])])
          = jsSetField [] (jsTrim k)
              (sortObjectByKey (JVal.obj (jsSetField [] f (JVal.obj [(u, a)])))) from rfl,
        jsSetField_nil f (JVal.obj [(u, a)]), sortObjectByKey_single, jsSetField_nil,
        hstep2, sortObjectByKey_single]
    have hS' : jvNoUndef.fieldsNoUndef (jsSetField [(u, a)] w b) = true := by
      simpa [jvNoUndef] using hS
    have hdoc : jvNoUndef
        (JVal.obj [(jsTrim k, JVal.obj [(f, JVal.obj (jsSetField [(u, a)] w b))])]) = true := by
      simp [jvNoUndef, jvNoUndef.fieldsNoUndef, hS']
    rw [hfull, jsonClean_of_noUndef _ hdoc]
  · intro k f s₁ s₂ d₁ d₂ j₁ j₂ opts hm hs
    rw [getField_generate_paths]
    have hstep2 : mergePathDetails [(jsTrim k, JVal.obj [(f, s₁)])]
        (JVal.obj [(k, JVal.obj [(f, s₂)])])
        = [(jsTrim k, JVal.obj [(f, s₂)])] := by
      simp only [mergePathDetails, jsOwnFields, List.foldl_cons, List.foldl_nil]
      simp only [lookupField, beq_self_eq_true, if_true, jsIsNil, Bool.false_eq_true, if_false]
      rw [show deepMergeJV (JVal.obj [(f, s₁)]) (JVal.obj [(f, s₂)])
          = JVal.obj (jsSetField [(f, s₁)] f s₂) from by
        simp only [deepMergeJV, deepMergeJV.mergeFields, baseFields, jsHasKey, lookupField,
          beq_self_eq_true, Option.isSome_some, hm, Bool.and_false, Bool.false_eq_true,
          if_false]]
      rw [show jsSetField [(f, s₁)] f s₂ = [(f, s₂)] from by
        simp only [jsSetField, lookupField, beq_self_eq_true, if_true, List.map_cons,
          List.map_nil]]
      rw [sortObjectByKey_single]
      simp only [jsSetField, lookupField, beq_self_eq_true, if_true, List.map_cons, List.map_nil]
    have hfull : pathsJVal
        [⟨d₁, .obj [(k, .obj [(f, s₁)])], j₁, some "path"⟩,
         ⟨d₂, .obj [(k, .obj [(f, s₂)])], j₂, some "path"⟩]
        = JVal.obj [(jsTrim k, JVal.obj [(f, s₂)])] := by
      show sortObjectByKey (JVal.obj (mergePathDetails (mergePathDetails []
          (JVal.obj [(k, JVal.obj [(f, s₁)])]))
          (JVal.obj [(k, JVal.obj [(f, s₂)])]))) = _
      rw [show mergePathDetails [] (JVal.obj [(k, JVal.obj [(f, s₁)])])
          = jsSetField [] (jsTrim k)
              (sortObjectByKey (JVal.obj (jsSetField [] f s₁))) from rfl,
        jsSetField_nil f s₁, sortObjectByKey_single, jsSetField_nil, hstep2,
        sortObjectByKey_single]
    rw [hfull]
    simp only [jsonClean, jsonClean.cleanFields, jsonClean_of_noUndef s₂ hs]
  · intro k f xs ys d₁ d₂ j₁ j₂ opts hxs hys
    rw [getField_generate_paths]
    have hccat : jvNoUndef (JVal.arr (xs ++ ys)) = true := by
      show jvNoUndef.listNoUndef (xs ++ ys) = true
      exact listNoUndef_append xs ys (by simpa [jvNoUndef] using hxs)
        (by simpa [jvNoUndef] using hys)
    have hstep2 : mergePathDetails [(jsTrim k, JVal.obj [(f, JVal.arr xs)])]
        (JVal.obj [(k, JVal.obj [(f, JVal.arr ys)])])
        = [(jsTrim k, JVal.obj [(f, JVal.arr (xs ++ ys))])] := by
      simp only [mergePathDetails, jsOwnFields, List.foldl_cons, List.foldl_nil]
      simp only [lookupField, beq_self_eq_true, if_true, jsIsNil, Bool.false_eq_true, if_false]
      rw [show deepMergeJV (JVal.obj [(f, JVal.arr xs)]) (JVal.obj [(f, JVal.arr ys)])
          = JVal.obj (jsSetField [(f, JVal.arr xs)] f (JVal.arr (xs ++ ys))) from by
        simp only [deepMergeJV, deepMergeJV.mergeFields, baseFields, jsHasKey, lookupField,
          beq_self_eq_true, Option.isSome_some, isMergeable, Bool.and_self, if_true,
          Option.getD_some]]
      rw [show jsSetField [(f, JVal.arr xs)] f (JVal.arr (xs ++ ys))
          = [(f, JVal.arr (xs ++ ys))] from by
        simp only [jsSetField, lookupField, beq_self_eq_true, if_true, List.map_cons,
          List.map_nil]]
      rw [sortObjectByKey_single]
      simp only [jsSetField, lookupField, beq_self_eq_true, if_true, List.map_cons, List.map_nil]
    have hfull : pathsJVal
        [⟨d₁, .obj [(k, .obj [(f, .arr xs)])], j₁, some "path"⟩,
         ⟨d₂, .obj [(k, .obj [(f, .arr ys)])], j₂, some "path"⟩]
        = JVal.obj [(jsTrim k, JVal.obj [(f, JVal.arr (xs ++ ys))])] := by
      show sortObjectByKey (JVal.obj (mergePathDetails (mergePathDetails []
          (JVal.obj [(k, JVal.obj [(f, JVal.arr xs)])]))
          (JVal.obj [(k, JVal.obj [(f, JVal.arr ys)])]))) = _
      rw [show mergePathDetails [] (JVal.obj [(k, JVal.obj [(f, JVal.arr xs)])])
          = jsSetField [] (jsTrim k)
              (sortObjectByKey (JVal.obj (jsSetField [] f (JVal.arr xs)))) from rfl,
        jsSetField_nil f (JVal.arr xs), sortObjectByKey_single, jsSetField_nil, hstep2,
        sortObjectByKey_single]
    rw [hfull]
    have hl : jsonClean.cleanList (xs ++ ys) = xs ++ ys :=
      cleanList_of_noUndef _ (by simpa [jvNoUndef] using hccat)
    simp only [jsonClean, jsonClean.cleanFields, jsonClean.cleanList, hl]

/-- Witness for the amended C2: nested maps combine, a later scalar wins,
and later arrays concatenate after earlier ones. -/
theorem path_merge_deep_merge_semantics_witness :
    getField (generateSwaggerV2Document
        [⟨none, .obj [("/u", .obj [("resp", .obj [("200", .num 1)])])], ⟨"", []⟩, some "path"⟩,
         ⟨none, .obj [("/u", .obj [("resp", .obj [("404", .num 4)])])], ⟨"", []⟩, some "path"⟩]
        {}) "paths"
      = some (.obj [("/u", .obj [("resp", .obj [("200", .num 1), ("404", .num 4)])])]) ∧
    getField (generateSwaggerV2Document
        [⟨none, .obj [("/u", .obj [("sum", .str "old")])], ⟨"", []⟩, some "path"⟩,
         ⟨none, .obj [("/u", .obj [("sum", .str "new")])], ⟨"", []⟩, some "path"⟩] {}) "paths"
      = some (.obj [("/u", .obj [("sum", .str "new")])]) ∧
    getField (generateSwaggerV2Document
        [⟨none, .obj [("/u", .obj [("tags", .arr [.str "x"])])], ⟨"", []⟩, some "path"⟩,
         ⟨none, .obj [("/u", .obj [("tags", .arr [.str "y"])])], ⟨"", []⟩, some "path"⟩] {})
        "paths"
      = some (.obj [("/u", .obj [("tags", .arr [.str "x", .str "y"])])]) := by
  refine ⟨?_, ?_, ?_⟩
  · have h := path_merge_deep_merge_semantics.1 "/u" "resp" "200" "404" (.num 1) (.num 4)
      none none ⟨"", []⟩ ⟨"", []⟩ {} rfl rfl (by decide)
    rw [h.1]
    rfl
  · have h := path_merge_deep_merge_semantics.2.1 "/u" "sum" (.str "old") (.str "new")
      none none ⟨"", []⟩ ⟨"", []⟩ {} rfl rfl
    rw [h]
    rfl
  · have h := path_merge_deep_merge_semantics.2.2 "/u" "tags" [.str "x"] [.str "y"]
      none none ⟨"", []⟩ ⟨"", []⟩ {} rfl rfl
    rw [h]
    rfl

/-! ### Lemmas about the JS own-property enumeration order -/

theorem numLtC_asymm {a b : List Nat} (h : numLtC a b = true) : numLtC b a = false := by
  simp only [numLtC] at h ⊢
  split_ifs at h ⊢ with h1 h2 h3 h4 <;>
    first | rfl | omega | exact ltCodes_asymm h | simp_all

theorem numLtC_eq_of_both_false {a b : List Nat} (h1 : numLtC a b = false)
    (h2 : numLtC b a = false) : a = b := by
  simp only [numLtC] at h1 h2
  split_ifs at h1 h2 <;> first | omega | exact ltCodes_eq_of_both_false h1 h2

theorem numLtC_trans {a b c : List Nat} (h1 : numLtC a b = true) (h2 : numLtC b c = true) :
    numLtC a c = true := by
  simp only [numLtC] at h1 h2 ⊢
  split_ifs at h1 h2 ⊢ <;>
    first | rfl | omega | exact ltCodes_trans h1 h2 | simp_all

/-- The pairwise constraint JS own-property enumeration puts on two keys
appearing in this order: two array-index keys ascend numerically, an
array-index key never appears after a non-index key, and two non-index
keys are unconstrained (insertion order). -/
def enumRel (x y : String) : Bool :=
  match isArrayIndexKey x, isArrayIndexKey y with
  | true, true => !(numLtC (strCodes y) (strCodes x))
  | true, false => true
  | false, true => false
  | false, false => true

theorem enumRel_right_of_nonidx (z k : String) (h : isArrayIndexKey k = false) :
    enumRel z k = true := by
  rcases hz : isArrayIndexKey z with _ | _ <;> simp [enumRel, hz, h]

theorem mem_insertIndexEntry {kv p : String × JVal} :
    ∀ {fs : List (String × JVal)}, p ∈ insertIndexEntry kv fs → p = kv ∨ p ∈ fs := by
  intro fs
  induction fs with
  | nil => intro h; simpa [insertIndexEntry] using h
  | cons q rest ih =>
    intro h
    simp only [insertIndexEntry] at h
    split_ifs at h with hc
    · rcases List.mem_cons.mp h with h | h
      · right; simp [h]
      · rcases ih h with h | h
        · left; exact h
        · right; simp [h]
    · rcases List.mem_cons.mp h with h | h
      · left; exact h
      · right; exact h

theorem pairwise_insertIndexEntry (kv : String × JVal) (hk : isArrayIndexKey kv.1 = true) :
    ∀ {fs : List (String × JVal)}, fs.Pairwise (fun x y => enumRel x.1 y.1 = true) →
      (insertIndexEntry kv fs).Pairwise (fun x y => enumRel x.1 y.1 = true) := by
  intro fs
  induction fs with
  | nil => intro _; simp [insertIndexEntry]
  | cons p rest ih =>
    intro h
    rcases List.pairwise_cons.mp h with ⟨hp, hrest⟩
    simp only [insertIndexEntry]
    split_ifs with hc
    · rw [Bool.and_eq_true] at hc
      refine List.pairwise_cons.mpr ⟨?_, ih hrest⟩
      intro q hq
      rcases mem_insertIndexEntry hq with rfl | hq
      · simp only [enumRel, hc.1, hk]
        rw [numLtC_asymm hc.2]
        rfl
      · exact hp q hq
    · refine List.pairwise_cons.mpr ⟨?_, h⟩
      intro q hq
      rcases List.mem_cons.mp hq with rfl | hq
      · rcases hq' : isArrayIndexKey q.1 with _ | _
        · simp [enumRel, hk, hq']
        · have hnum : numLtC (strCodes q.1) (strCodes kv.1) = false := by
            rcases hn : numLtC (strCodes q.1) (strCodes kv.1) with _ | _
            · rfl
            · exact absurd (by rw [hq', hn]; rfl) hc
          simp [enumRel, hk, hq', hnum]
      · rcases hq' : isArrayIndexKey q.1 with _ | _
        · exact enumRel_right_of_nonidx kv.1 q.1 hq'
        · rcases hp' : isArrayIndexKey p.1 with _ | _
          · have := hp q hq
            rw [show enumRel p.1 q.1 = false from by simp [enumRel, hp', hq']] at this
            cases this
          · have hpk : numLtC (strCodes p.1) (strCodes kv.1) = false := by
              rcases hn : numLtC (strCodes p.1) (strCodes kv.1) with _ | _
              · rfl
              · exact absurd (by rw [hp', hn]; rfl) hc
            have hqp : numLtC (strCodes q.1) (strCodes p.1) = false := by
              have := hp q hq
              simpa [enumRel, hp', hq'] using this
            have hqk : numLtC (strCodes q.1) (strCodes kv.1) = false := by
              rcases hn : numLtC (strCodes q.1) (strCodes kv.1) with _ | _
              · rfl
              · rcases hkp : numLtC (strCodes kv.1) (strCodes p.1) with _ | _
                · have heq := numLtC_eq_of_both_false hpk hkp
                  rw [← heq] at hn
                  rw [hn] at hqp
                  cases hqp
                · have := numLtC_trans hn hkp
                  rw [this] at hqp
                  cases hqp
            simp [enumRel, hk, hq', hqk]

theorem updateField_fst (k : String) (v : JVal) (p : String × JVal) :
    (if p.1 == k then (k, v) else p).1 = p.1 := by
  rcases h : p.1 == k with _ | _
  · simp [h]
  · simp [h, (eq_of_beq h).symm]

theorem pairwise_jsSetField (fs : List (String × JVal)) (k : String) (v : JVal)
    (h : fs.Pairwise (fun x y => enumRel x.1 y.1 = true)) :
    (jsSetField fs k v).Pairwise (fun x y => enumRel x.1 y.1 = true) := by
  rw [jsSetField]
  rcases lookupField fs k with _ | w
  · rcases hk : isArrayIndexKey k with _ | _
    · rw [if_neg (by simp [hk])]
      rw [List.pairwise_append]
      refine ⟨h, by simp, ?_⟩
      intro p hp q hq
      rw [List.mem_singleton.mp hq]
      exact enumRel_right_of_nonidx p.1 k hk
    · rw [if_pos (by simp [hk])]
      exact pairwise_insertIndexEntry (k, v) hk h
  · refine List.Pairwise.map _ ?_ h
    intro a b hab
    rw [updateField_fst, updateField_fst]
    exact hab

theorem pairwise_jsFreshObj (l : List (String × JVal)) :
    (jsFreshObj l).Pairwise (fun x y => enumRel x.1 y.1 = true) := by
  suffices haux : ∀ (l : List (String × JVal)) (acc : List (String × JVal)),
      acc.Pairwise (fun x y => enumRel x.1 y.1 = true) →
      (l.foldl (fun acc kv => jsSetField acc kv.1 kv.2) acc).Pairwise
        (fun x y => enumRel x.1 y.1 = true) by
    exact haux l [] (by simp)
  intro l
  induction l with
  | nil => intro acc hacc; simpa using hacc
  | cons kv rest ih =>
    intro acc hacc
    exact ih (jsSetField acc kv.1 kv.2) (pairwise_jsSetField acc kv.1 kv.2 hacc)

theorem filter_insertIndexEntry (kv : String × JVal) (hk : isArrayIndexKey kv.1 = true) :
    ∀ fs : List (String × JVal),
      (insertIndexEntry kv fs).filter (fun p => !isArrayIndexKey p.1)
        = fs.filter (fun p => !isArrayIndexKey p.1) := by
  intro fs
  induction fs with
  | nil => simp [insertIndexEntry, hk]
  | cons p rest ih =>
    simp only [insertIndexEntry]
    split_ifs with hc
    · rw [Bool.and_eq_true] at hc
      rw [List.filter_cons, List.filter_cons]
      simp only [hc.1]
      exact ih
    · rw [List.filter_cons]
      simp only [hk]
      rfl

theorem filter_keys_map_update (fs : List (String × JVal)) (k : String) (v : JVal) :
    (((fs.map (fun p => if p.1 == k then (k, v) else p)).filter
        (fun p => !isArrayIndexKey p.1)).map Prod.fst)
      = ((fs.filter (fun p => !isArrayIndexKey p.1)).map Prod.fst) := by
  induction fs with
  | nil => rfl
  | cons p rest ih =>
    rw [List.map_cons, List.filter_cons, List.filter_cons, updateField_fst]
    rcases hp : (!isArrayIndexKey p.1) with _ | _
    · simpa [hp] using ih
    · simp only [hp, if_true, List.map_cons, updateField_fst]
      exact congrArg _ ih

theorem filter_keys_jsSetField (acc : List (String × JVal)) (k : String) (v : JVal) :
    List.Sublist (((jsSetField acc k v).filter (fun p => !isArrayIndexKey p.1)).map Prod.fst)
      (((acc.filter (fun p => !isArrayIndexKey p.1)).map Prod.fst) ++ [k]) := by
  rw [jsSetField]
  rcases lookupField acc k with _ | w
  · rcases hk : isArrayIndexKey k with _ | _
    · rw [if_neg (by simp [hk]), List.filter_append]
      rw [show (([(k, v)] : List (String × JVal)).filter (fun p => !isArrayIndexKey p.1))
          = [(k, v)] from by simp [hk]]
      rw [List.map_append]
      exact List.Sublist.refl _
    · rw [if_pos (by simp [hk]), filter_insertIndexEntry (k, v) hk acc]
      exact List.sublist_append_left _ _
  · rw [filter_keys_map_update]
    exact List.sublist_append_left _ _

theorem filter_keys_jsFreshObj (l : List (String × JVal)) :
    List.Sublist (((jsFreshObj l).filter (fun p => !isArrayIndexKey p.1)).map Prod.fst)
      (l.map Prod.fst) := by
  suffices haux : ∀ (l acc : List (String × JVal)),
      List.Sublist (((l.foldl (fun acc kv => jsSetField acc kv.1 kv.2) acc).filter
          (fun p => !isArrayIndexKey p.1)).map Prod.fst)
        (((acc.filter (fun p => !isArrayIndexKey p.1)).map Prod.fst) ++ l.map Prod.fst) by
    simpa using haux l []
  intro l
  induction l with
  | nil =>
    intro acc
    simp only [List.foldl_nil, List.map_nil, List.append_nil]
    exact List.Sublist.refl _
  | cons kv rest ih =>
    intro acc
    have h1 := ih (jsSetField acc kv.1 kv.2)
    have h2 := filter_keys_jsSetField acc kv.1 kv.2
    have h3 := List.Sublist.append h2 (List.Sublist.refl (rest.map Prod.fst))
    rw [List.foldl_cons, List.map_cons]
    refine h1.trans (h3.trans ?_)
    rw [List.append_assoc, List.singleton_append]

theorem cleanFields_filter_keys_sublist (X : List (String × JVal)) :
    List.Sublist (((jsonClean.cleanFields X).filter (fun p => !isArrayIndexKey p.1)).map Prod.fst)
      ((X.filter (fun p => !isArrayIndexKey p.1)).map Prod.fst) := by
  induction X with
  | nil => simp [jsonClean.cleanFields]
  | cons kv rest ih =>
    rcases kv with ⟨k, v⟩
    rcases hv : jsonClean v with _ | w
    · rw [jsonClean.cleanFields, hv, List.filter_cons]
      rcases hk : (!isArrayIndexKey k) with _ | _
      · simpa [hk] using ih
      · simp only [hk, cond_true, List.map_cons]
        exact ih.trans (List.sublist_cons_self _ _)
    · rw [jsonClean.cleanFields, hv, List.filter_cons, List.filter_cons]
      rcases hk : (!isArrayIndexKey k) with _ | _
      · simpa [hk] using ih
      · simp only [hk, cond_true, List.map_cons]
        exact List.Sublist.cons₂ _ ih

/-- C4 counterexample: definition names that are canonical array indices are
enumerated by the real document in ascending numeric order, not in the
comparator order — for names `10` and `2` the final mapping enumerates `2`
first, while the case-insensitive trimmed comparator puts `10` first, so
the mapping is not sorted by that comparator. -/
theorem mappings_not_comparator_sorted :
    getField (generateSwaggerV2Document
        [⟨none, .obj [("10", .num 1)], ⟨"", []⟩, some "definition"⟩,
         ⟨none, .obj [("2", .num 2)], ⟨"", []⟩, some "definition"⟩] {}) "definitions"
      = some (.obj [("2", .num 2), ("10", .num 1)]) ∧
    ¬ ([("2", JVal.num 2), ("10", JVal.num 1)]).Pairwise (fun u w => keyLe u.1 w.1 = true) :=
  ⟨rfl,
   fun h => absurd ((List.pairwise_cons.mp h).1 ("10", JVal.num 1) (by simp)) (by decide)⟩

/-- C4 (amended): in every generated document, the `paths` mapping and the
`definitions` mapping enumerate their keys in the JS own-property order of
the comparator-sorted key sequence: canonical array-index keys come first,
in ascending numeric order, and the remaining keys follow in
case-insensitive, trimmed comparator order; in particular, for non-index
definition names Zebra, apple, Banana the enumeration is apple, Banana,
Zebra. -/
theorem generated_mappings_enum_ordered (blocks : List SwaggerDocBlock)
    (opts : GenerateOptions) :
    (∀ fs, getField (generateSwaggerV2Document blocks opts) "paths" = some (.obj fs) →
      fs.Pairwise (fun u w => enumRel u.1 w.1 = true) ∧
      ((fs.filter (fun p => !isArrayIndexKey p.1)).map Prod.fst).Pairwise
        (fun x y => keyLe x y = true)) ∧
    (∀ fs, getField (generateSwaggerV2Document blocks opts) "definitions" = some (.obj fs) →
      fs.Pairwise (fun u w => enumRel u.1 w.1 = true) ∧
      ((fs.filter (fun p => !isArrayIndexKey p.1)).map Prod.fst).Pairwise
        (fun x y => keyLe x y = true)) := by
  constructor
  · intro fs h
    rw [getField_generate_paths] at h
    by_cases hemp : (pathBlocksOf blocks).isEmpty = true
    · simp [pathsJVal, hemp, jsonClean] at h
    · have hemp' : (pathBlocksOf blocks).isEmpty = false := by
        simpa using hemp
      simp only [pathsJVal, hemp', Bool.false_eq_true, if_false] at h
      rw [show sortObjectByKey (JVal.obj (pathsAggregate (pathBlocksOf blocks)))
          = JVal.obj (jsFreshObj (sortLe fieldLe (pathsAggregate (pathBlocksOf blocks))))
          from rfl] at h
      rw [show jsonClean (JVal.obj (jsFreshObj (sortLe fieldLe
            (pathsAggregate (pathBlocksOf blocks)))))
          = some (JVal.obj (jsonClean.cleanFields (jsFreshObj (sortLe fieldLe
            (pathsAggregate (pathBlocksOf blocks)))))) from rfl] at h
      injection h with h
      injection h with h
      rw [← h]
      constructor
      · exact pairwise_cleanFields_key (fun a b => enumRel a b = true) _ (pairwise_jsFreshObj _)
      · have hs : ((sortLe fieldLe (pathsAggregate (pathBlocksOf blocks))).map
            Prod.fst).Pairwise (fun x y => keyLe x y = true) := by
          rw [List.pairwise_map]
          exact pairwise_sortLe fieldLe_total fieldLe_trans _
        exact List.Pairwise.sublist
          ((cleanFields_filter_keys_sublist _).trans (filter_keys_jsFreshObj _)) hs
  · intro fs h
    rw [getField_generate_definitions] at h
    by_cases hemp : (definitionBlocksOf blocks).isEmpty = true
    · simp [definitionsJVal, hemp, jsonClean] at h
    · have hemp' : (definitionBlocksOf blocks).isEmpty = false := by
        simpa using hemp
      simp only [definitionsJVal, hemp', Bool.false_eq_true, if_false] at h
      rw [show sortObjectByKey (JVal.obj (definitionsAggregate (definitionBlocksOf blocks)))
          = JVal.obj (jsFreshObj (sortLe fieldLe
            (definitionsAggregate (definitionBlocksOf blocks)))) from rfl] at h
      rw [show jsonClean (JVal.obj (jsFreshObj (sortLe fieldLe
            (definitionsAggregate (definitionBlocksOf blocks)))))
          = some (JVal.obj (jsonClean.cleanFields (jsFreshObj (sortLe fieldLe
            (definitionsAggregate (definitionBlocksOf blocks)))))) from rfl] at h
      injection h with h
      injection h with h
      rw [← h]
      constructor
      · exact pairwise_cleanFields_key (fun a b => enumRel a b = true) _ (pairwise_jsFreshObj _)
      · have hs : ((sortLe fieldLe (definitionsAggregate (definitionBlocksOf blocks))).map
            Prod.fst).Pairwise (fun x y => keyLe x y = true) := by
          rw [List.pairwise_map]
          exact pairwise_sortLe fieldLe_total fieldLe_trans _
        exact List.Pairwise.sublist
          ((cleanFields_filter_keys_sublist _).trans (filter_keys_jsFreshObj _)) hs

/-- Witness for the amended C4: non-index definition names `Zebra`,
`apple`, `Banana` enumerate as `apple`, `Banana`, `Zebra`, that enumeration
satisfies the own-property order constraint, and its non-index keys are in
comparator order. -/
theorem generated_mappings_enum_ordered_witness :
    getField (generateSwaggerV2Document
        [⟨none, .obj [("Zebra", .num 1)], ⟨"", []⟩, some "definition"⟩,
         ⟨none, .obj [("apple", .num 2)], ⟨"", []⟩, some "definition"⟩,
         ⟨none, .obj [("Banana", .num 3)], ⟨"", []⟩, some "definition"⟩] {}) "definitions"
      = some (.obj [("apple", .num 2), ("Banana", .num 3), ("Zebra", .num 1)]) ∧
    ([("apple", JVal.num 2), ("Banana", JVal.num 3), ("Zebra", JVal.num 1)]).Pairwise
      (fun u w => enumRel u.1 w.1 = true) ∧
    (([("apple", JVal.num 2), ("Banana", JVal.num 3), ("Zebra", JVal.num 1)].filter
        (fun p => !isArrayIndexKey p.1)).map Prod.fst).Pairwise
      (fun x y => keyLe x y = true) :=
  ⟨rfl,
   ((generated_mappings_enum_ordered
      [⟨none, .obj [("Zebra", .num 1)], ⟨"", []⟩, some "definition"⟩,
       ⟨none, .obj [("apple", .num 2)], ⟨"", []⟩, some "definition"⟩,
       ⟨none, .obj [("Banana", .num 3)], ⟨"", []⟩, some "definition"⟩] {}).2
     [("apple", JVal.num 2), ("Banana", JVal.num 3), ("Zebra", JVal.num 1)] rfl).1,
   ((generated_mappings_enum_ordered
      [⟨none, .obj [("Zebra", .num 1)], ⟨"", []⟩, some "definition"⟩,
       ⟨none, .obj [("apple", .num 2)], ⟨"", []⟩, some "definition"⟩,
       ⟨none, .obj [("Banana", .num 3)], ⟨"", []⟩, some "definition"⟩] {}).2
     [("apple", JVal.num 2), ("Banana", JVal.num 3), ("Zebra", JVal.num 1)] rfl).2⟩
